import Mathlib

/-!
Shallow embedding of the LLG spin-chain RK4 integrator (src/main.rs).

Machine `f64` arithmetic is modelled by exact real arithmetic; `Vector3<f64>`
becomes the structure `Vec3` of three reals; `Vec<Vector3<f64>>` becomes
`List Vec3`; rayon's `par_iter().map(...)` over sites becomes an index map
(its scheduling freedom is modelled separately by `stageSched`).
-/

namespace Nez

/-! ### Integer-level constants and the zarr write geometry (from `main`) -/

/-- Constant `N_SPINS`: chain length (src/main.rs line 19). -/
def N_SPINS : ℕ := 128

/-- Constant `N_STEPS`: number of time steps (src/main.rs line 27). -/
def N_STEPS : ℕ := 50

/-- Declared zarr array shape, from
`vec![(N_STEPS + 1) as u64, 1, 1, N_SPINS as u64, 3]` (src/main.rs line 130);
axes in order time, z, y, x, vector-component. -/
def arrayShape : List ℕ := [N_STEPS + 1, 1, 1, N_SPINS, 3]

/-- The half-open ranges of the `ArraySubset` the driver writes at `step`
(src/main.rs lines 154-160): `step..step+1`, `0..N_SPINS`, `0..1`, `0..1`,
`0..3`, in axis order. -/
def writeSubset (step : ℕ) : List (ℕ × ℕ) :=
  [(step, step + 1), (0, N_SPINS), (0, 1), (0, 1), (0, 3)]

/-- A subset (list of half-open ranges) fits a shape when it has one range per
axis and every range's upper end is within that axis's extent. -/
def subsetWithinShape (sub : List (ℕ × ℕ)) (shape : List ℕ) : Prop :=
  sub.length = shape.length ∧
    ∀ j ∈ List.range shape.length, (sub.getD j (0, 0)).2 ≤ shape.getD j 0

instance (sub : List (ℕ × ℕ)) (shape : List ℕ) : Decidable (subsetWithinShape sub shape) :=
  inferInstanceAs (Decidable (sub.length = shape.length ∧
    ∀ j ∈ List.range shape.length, (sub.getD j (0, 0)).2 ≤ shape.getD j 0))

/-! ### 3-vectors over ℝ -/

/-- A 3-component real vector, modelling `nalgebra::Vector3<f64>`. -/
@[ext]
structure Vec3 where
  x : ℝ
  y : ℝ
  z : ℝ

noncomputable section

instance : Zero Vec3 := ⟨⟨0, 0, 0⟩⟩

instance : Add Vec3 := ⟨fun a b => ⟨a.x + b.x, a.y + b.y, a.z + b.z⟩⟩

instance : Sub Vec3 := ⟨fun a b => ⟨a.x - b.x, a.y - b.y, a.z - b.z⟩⟩

instance : SMul ℝ Vec3 := ⟨fun c v => ⟨c * v.x, c * v.y, c * v.z⟩⟩

/-- Componentwise division of a vector by a scalar (`Vector3 / f64`). -/
def Vec3.divs (v : Vec3) (c : ℝ) : Vec3 := ⟨v.x / c, v.y / c, v.z / c⟩

/-- Dot product. -/
def dot (a b : Vec3) : ℝ := a.x * b.x + a.y * b.y + a.z * b.z

/-- Cross product, as `nalgebra`'s `cross`. -/
def cross (a b : Vec3) : Vec3 :=
  ⟨a.y * b.z - a.z * b.y, a.z * b.x - a.x * b.z, a.x * b.y - a.y * b.x⟩

/-- Euclidean norm. -/
def norm (v : Vec3) : ℝ := Real.sqrt (dot v v)

/-- The `nalgebra` `normalize`: divide by the Euclidean norm. -/
def normalize (v : Vec3) : Vec3 := v.divs (norm v)

/-- Total list indexing with zero default, modelling `chain[i]` at the
in-range indices the program uses. -/
def nth (l : List Vec3) (i : ℕ) : Vec3 := l.getD i 0

/-! ### Physical constants (src/main.rs lines 19-30) -/

/-- Lattice spacing (m). -/
def D : ℝ := 2.5e-9

/-- Gyromagnetic ratio (rad s⁻¹ T⁻¹). -/
def GAMMA : ℝ := 1.760859e11

/-- Gilbert damping constant. -/
def ALPHA : ℝ := 0.2

/-- Exchange stiffness (J m⁻¹). -/
def A_EX : ℝ := 1.3e-11

/-- Constant `μ₀Mₛ = 4.0 * std::f64::consts::PI * 1.0e5`. -/
def MU0_MS : ℝ := 4.0 * Real.pi * 1.0e5

/-- Time step (s). -/
def DT : ℝ := 1e-14

/-- External field (Tesla). -/
def H_EXT : Vec3 := ⟨0, 0, 1⟩

/-! ### Core kernels (src/main.rs lines 33-52) -/

/-- Function `llg_rhs`: LLG right-hand side for a single spin (src/main.rs lines 34-39). -/
def llg_rhs (m h_eff : Vec3) : Vec3 :=
  let mxh := cross m h_eff
  let mxmxh := cross m mxh
  let pref := -GAMMA / (1 + ALPHA * ALPHA)
  pref • (mxh + ALPHA • mxmxh)

/-- Function `exchange_field`: exchange field at site `i` with free boundaries
(src/main.rs lines 42-52). -/
def exchange_field (chain : List Vec3) (i : ℕ) : Vec3 :=
  let m_i := nth chain i
  let m_ip1 := if i + 1 < chain.length then nth chain (i + 1) else m_i
  let m_im1 := if 0 < i then nth chain (i - 1) else m_i
  let lap := m_ip1 - (2 : ℝ) • m_i + m_im1
  ((2 * A_EX / MU0_MS) • lap).divs (D * D)

/-- One parallel stage evaluation: the `par_iter().enumerate().map(...)` body
shared by all four `k` stages of `rk4_step`, which sends site `i` of a chain
snapshot to `llg_rhs(m[i], H_EXT + exchange_field(chain, i))`. -/
def stage (chain : List Vec3) : List Vec3 :=
  (List.range chain.length).map
    (fun i => llg_rhs (nth chain i) (H_EXT + exchange_field chain i))

/-- A stage evaluation under an explicit completion schedule: each finished
task `i` writes its result into slot `i` of the output buffer, in the order
given by `order`.  Models rayon workers finishing in arbitrary order while
writing to disjoint index-addressed slots. -/
def stageSched (order : List ℕ) (chain : List Vec3) : List Vec3 :=
  order.foldl
    (fun acc i =>
      acc.set i (llg_rhs (nth chain i) (H_EXT + exchange_field chain i)))
    (List.replicate chain.length 0)

/-- Function `rk4_step`: one RK4 step for the whole chain (src/main.rs lines 55-107),
with each `par_iter` stage embedded as `stage` and each zip-map kept as in the
source.  Normalization occurs only in the final combine. -/
def rk4_step (chain : List Vec3) : List Vec3 :=
  let k1 := stage chain
  let tmp1 := (chain.zip k1).map (fun p => p.1 + (0.5 * DT) • p.2)
  let k2 := stage tmp1
  let tmp2 := (chain.zip k2).map (fun p => p.1 + (0.5 * DT) • p.2)
  let k3 := stage tmp2
  let tmp3 := (chain.zip k3).map (fun p => p.1 + DT • p.2)
  let k4 := stage tmp3
  ((((chain.zip k1).zip k2).zip k3).zip k4).map
    (fun p =>
      normalize (p.1.1.1.1 +
        (DT / 6) • (p.1.1.1.2 + (2 : ℝ) • p.1.1.2 + (2 : ℝ) • p.1.2 + p.2)))

/-! ### Spec-side per-site descriptions of the RK4 stages -/

/-- Spec-side trial chain: site `i` holds `chain[i] + (c·dt)·ks[i]`. -/
def trial (chain ks : List Vec3) (c : ℝ) : List Vec3 :=
  (List.range chain.length).map (fun i => nth chain i + (c * DT) • nth ks i)

/-- Stage derivatives `k1`: evaluated on the input chain itself. -/
def rk4_k1 (chain : List Vec3) : List Vec3 := stage chain

/-- Stage derivatives `k2`: evaluated on the trial chain `chain[i] + 0.5·dt·k1[i]`. -/
def rk4_k2 (chain : List Vec3) : List Vec3 := stage (trial chain (rk4_k1 chain) 0.5)

/-- Stage derivatives `k3`: evaluated on the trial chain `chain[i] + 0.5·dt·k2[i]`. -/
def rk4_k3 (chain : List Vec3) : List Vec3 := stage (trial chain (rk4_k2 chain) 0.5)

/-- Stage derivatives `k4`: evaluated on the trial chain `chain[i] + dt·k3[i]`. -/
def rk4_k4 (chain : List Vec3) : List Vec3 := stage (trial chain (rk4_k3 chain) 1)

/-- The pre-normalization RK4 combination at site `i`:
`chain[i] + (dt/6)·(k1[i] + 2·k2[i] + 2·k3[i] + k4[i])`. -/
def rk4_combined (chain : List Vec3) (i : ℕ) : Vec3 :=
  nth chain i +
    (DT / 6) • (nth (rk4_k1 chain) i + (2 : ℝ) • nth (rk4_k2 chain) i +
      (2 : ℝ) • nth (rk4_k3 chain) i + nth (rk4_k4 chain) i)

/-! ### Uniform-chain RK4 update (for the single-spin comparison) -/

/-- The pre-normalization combined vector of one RK4 step on a chain all of
whose sites hold `v` (exchange vanishes, so every stage is spatially uniform). -/
def uniformCombined (v : Vec3) : Vec3 :=
  let a1 := llg_rhs v H_EXT
  let a2 := llg_rhs (v + (0.5 * DT) • a1) H_EXT
  let a3 := llg_rhs (v + (0.5 * DT) • a2) H_EXT
  let a4 := llg_rhs (v + (1 * DT) • a3) H_EXT
  v + (DT / 6) • (a1 + (2 : ℝ) • a2 + (2 : ℝ) • a3 + a4)

/-- The per-site result of one RK4 step on a uniform chain holding `v`. -/
def uniformNext (v : Vec3) : Vec3 := normalize (uniformCombined v)

/-! ### Driver (src/main.rs lines 109-173) -/

/-- Initial tilt angle: `10f64.to_radians()`. -/
def tilt : ℝ := 10 * Real.pi / 180

/-- Initial chain: `vec![Vector3::new(tilt.sin(), 0.0, tilt.cos()); N_SPINS]`. -/
def initChain : List Vec3 := List.replicate N_SPINS ⟨Real.sin tilt, 0, Real.cos tilt⟩

/-- The chain after `n` completed RK4 steps starting from `c0`. -/
def chainAt (c0 : List Vec3) : ℕ → List Vec3
  | 0 => c0
  | n + 1 => rk4_step (chainAt c0 n)

/-- Mean z-component, `chain.iter().map(|m| m.z).sum::<f64>() / N_SPINS as f64`. -/
def avgZ (chain : List Vec3) : ℝ := (chain.map Vec3.z).sum / (N_SPINS : ℝ)

/-- The print-and-step tail of one driver loop iteration (src/main.rs lines
164-169), reached only after that iteration's sink write has succeeded: acting
on (current chain, progress lines so far), it appends the printed pair
`(t, mean z)` when `step % 50 == 0`, then advances the chain by `rk4_step`. -/
def driverStep (st : List Vec3 × List (ℝ × ℝ)) (step : ℕ) : List Vec3 × List (ℝ × ℝ) :=
  let t : ℝ := (step : ℝ) * DT
  let lines := if step % 50 = 0 then st.2 ++ [(t, avgZ st.1)] else st.2
  (rk4_step st.1, lines)

/-- Modelled from the spec: the sink write `array.store_array_subset_elements`
(src/main.rs line 162) is external-collaborator code (the zarrs crate) absent
from this repository; per the slice-addressing contract it succeeds exactly
when the written subset fits the declared array shape, and I/O failures are
fatal — the `?` aborts the run immediately, with no retry.  Each loop
iteration therefore first attempts the write of `writeSubset step` against
`arrayShape`; on failure the run ends at once, returning the lines printed so
far (the failing iteration's own `println!`, which follows the write, never
runs); on success the print-and-step body `driverStep` proceeds. -/
def driverRun : List ℕ → List Vec3 × List (ℝ × ℝ) → List (ℝ × ℝ)
  | [], st => st.2
  | step :: rest, st =>
    if subsetWithinShape (writeSubset step) arrayShape then
      driverRun rest (driverStep st step)
    else st.2

/-- The progress lines the program actually prints over the whole run, error
propagation included: the loop `for step in 0..=N_STEPS` from the initial
chain. -/
def printedLines : List (ℝ × ℝ) :=
  driverRun (List.range (N_STEPS + 1)) (initChain, [])

end

/-! ### Componentwise lemmas for `Vec3` -/

@[simp] theorem Vec3.zero_x : (0 : Vec3).x = 0 := rfl

@[simp] theorem Vec3.zero_y : (0 : Vec3).y = 0 := rfl

@[simp] theorem Vec3.zero_z : (0 : Vec3).z = 0 := rfl

@[simp] theorem Vec3.add_x (a b : Vec3) : (a + b).x = a.x + b.x := rfl

@[simp] theorem Vec3.add_y (a b : Vec3) : (a + b).y = a.y + b.y := rfl

@[simp] theorem Vec3.add_z (a b : Vec3) : (a + b).z = a.z + b.z := rfl

@[simp] theorem Vec3.sub_x (a b : Vec3) : (a - b).x = a.x - b.x := rfl

@[simp] theorem Vec3.sub_y (a b : Vec3) : (a - b).y = a.y - b.y := rfl

@[simp] theorem Vec3.sub_z (a b : Vec3) : (a - b).z = a.z - b.z := rfl

@[simp] theorem Vec3.smul_x (c : ℝ) (v : Vec3) : (c • v).x = c * v.x := rfl

@[simp] theorem Vec3.smul_y (c : ℝ) (v : Vec3) : (c • v).y = c * v.y := rfl

@[simp] theorem Vec3.smul_z (c : ℝ) (v : Vec3) : (c • v).z = c * v.z := rfl

@[simp] theorem Vec3.divs_x (v : Vec3) (c : ℝ) : (v.divs c).x = v.x / c := rfl

@[simp] theorem Vec3.divs_y (v : Vec3) (c : ℝ) : (v.divs c).y = v.y / c := rfl

@[simp] theorem Vec3.divs_z (v : Vec3) (c : ℝ) : (v.divs c).z = v.z / c := rfl

theorem vsmul_zero (c : ℝ) : c • (0 : Vec3) = 0 := by
  ext <;> simp

theorem vadd_zero (v : Vec3) : v + 0 = v := by
  ext <;> simp

theorem vzero_add (v : Vec3) : 0 + v = v := by
  ext <;> simp

theorem divs_zero (c : ℝ) : (0 : Vec3).divs c = 0 := by
  ext <;> simp

theorem divs_smul (c : ℝ) (w : Vec3) (s : ℝ) : (c • w).divs s = (c / s) • w := by
  ext <;> simp <;> ring

/-! ### List indexing helpers -/

theorem nth_lt (l : List Vec3) (i : ℕ) (h : i < l.length) : nth l i = l[i] :=
  List.getD_eq_getElem l 0 h

theorem nth_ext (l l' : List Vec3) (hl : l.length = l'.length)
    (h : ∀ j, j < l.length → nth l j = nth l' j) : l = l' := by
  apply List.ext_getElem hl
  intro n h1 h2
  have hn := h n h1
  rwa [nth_lt l n h1, nth_lt l' n h2] at hn

theorem nth_replicate (n : ℕ) (v : Vec3) (i : ℕ) (h : i < n) :
    nth (List.replicate n v) i = v := by
  rw [nth_lt _ _ (by simpa using h), List.getElem_replicate]

theorem stage_length (chain : List Vec3) : (stage chain).length = chain.length := by
  simp [stage]

theorem trial_length (chain ks : List Vec3) (c : ℝ) :
    (trial chain ks c).length = chain.length := by
  simp [trial]

theorem nth_stage (chain : List Vec3) (i : ℕ) (h : i < chain.length) :
    nth (stage chain) i = llg_rhs (nth chain i) (H_EXT + exchange_field chain i) := by
  have h' : i < (stage chain).length := by rw [stage_length]; exact h
  rw [nth_lt _ _ h']
  simp only [stage, List.getElem_map, List.getElem_range]

theorem map_zip_eq_range (f : Vec3 → Vec3 → Vec3) (a b : List Vec3)
    (hab : a.length ≤ b.length) :
    (a.zip b).map (fun p => f p.1 p.2) =
      (List.range a.length).map (fun i => f (nth a i) (nth b i)) := by
  apply List.ext_getElem
  · simp [List.length_zip]
    omega
  · intro n h1 h2
    have ha : n < a.length := by
      simp [List.length_zip] at h1
      omega
    have hb : n < b.length := by omega
    rw [List.getElem_map, List.getElem_map, List.getElem_zip, List.getElem_range,
      nth_lt a n ha, nth_lt b n hb]

theorem map_zip5_eq_range (f : Vec3 → Vec3 → Vec3 → Vec3 → Vec3 → Vec3)
    (a b c d e : List Vec3) (hb : b.length = a.length) (hc : c.length = a.length)
    (hd : d.length = a.length) (he : e.length = a.length) :
    ((((a.zip b).zip c).zip d).zip e).map
        (fun p => f p.1.1.1.1 p.1.1.1.2 p.1.1.2 p.1.2 p.2) =
      (List.range a.length).map
        (fun i => f (nth a i) (nth b i) (nth c i) (nth d i) (nth e i)) := by
  apply List.ext_getElem
  · simp [List.length_zip]
    omega
  · intro n h1 h2
    have ha : n < a.length := by
      simp [List.length_zip] at h1
      omega
    rw [List.getElem_map, List.getElem_map, List.getElem_zip, List.getElem_zip,
      List.getElem_zip, List.getElem_zip, List.getElem_range,
      nth_lt a n ha, nth_lt b n (by omega), nth_lt c n (by omega),
      nth_lt d n (by omega), nth_lt e n (by omega)]

/-! ### The RK4 step, per site -/

theorem tmp_eq_trial (chain ks : List Vec3) (c : ℝ) (h : chain.length ≤ ks.length) :
    (chain.zip ks).map (fun p => p.1 + (c * DT) • p.2) = trial chain ks c := by
  rw [trial]
  exact map_zip_eq_range (fun m k => m + (c * DT) • k) chain ks h

theorem tmp_eq_trial_one (chain ks : List Vec3) (h : chain.length ≤ ks.length) :
    (chain.zip ks).map (fun p => p.1 + DT • p.2) = trial chain ks 1 := by
  have h1 := map_zip_eq_range (fun m k => m + DT • k) chain ks h
  rw [h1, trial]
  simp only [one_mul]

theorem rk4_step_eq (chain : List Vec3) :
    rk4_step chain =
      (List.range chain.length).map (fun i => normalize (rk4_combined chain i)) := by
  simp only [rk4_step]
  rw [tmp_eq_trial chain (stage chain) 0.5 (by rw [stage_length])]
  rw [tmp_eq_trial chain (stage (trial chain (stage chain) 0.5)) 0.5
    (by rw [stage_length, trial_length])]
  rw [tmp_eq_trial_one chain
    (stage (trial chain (stage (trial chain (stage chain) 0.5)) 0.5))
    (by rw [stage_length, trial_length])]
  exact map_zip5_eq_range
    (fun m q1 q2 q3 q4 =>
      normalize (m + (DT / 6) • (q1 + (2 : ℝ) • q2 + (2 : ℝ) • q3 + q4)))
    chain _ _ _ _
    (stage_length _)
    (by rw [stage_length, trial_length])
    (by rw [stage_length, trial_length])
    (by rw [stage_length, trial_length])

theorem rk4_step_length (chain : List Vec3) :
    (rk4_step chain).length = chain.length := by
  rw [rk4_step_eq]
  simp

theorem nth_rk4_step (chain : List Vec3) (i : ℕ) (h : i < chain.length) :
    nth (rk4_step chain) i = normalize (rk4_combined chain i) := by
  rw [rk4_step_eq]
  have h' : i <
      ((List.range chain.length).map (fun i => normalize (rk4_combined chain i))).length := by
    simpa using h
  rw [nth_lt _ _ h']
  simp only [List.getElem_map, List.getElem_range]

/-! ### Uniform chains -/

theorem exchange_replicate (n : ℕ) (v : Vec3) (i : ℕ) (h : i < n) :
    exchange_field (List.replicate n v) i = 0 := by
  simp only [exchange_field, List.length_replicate]
  rw [nth_replicate n v i h]
  have hp : (if i + 1 < n then nth (List.replicate n v) (i + 1) else v) = v := by
    split
    · exact nth_replicate n v (i + 1) (by omega)
    · rfl
  have hm : (if 0 < i then nth (List.replicate n v) (i - 1) else v) = v := by
    split
    · exact nth_replicate n v (i - 1) (by omega)
    · rfl
  rw [hp, hm]
  have hlap : v - (2 : ℝ) • v + v = 0 := by
    ext <;> simp <;> ring
  rw [hlap, vsmul_zero, divs_zero]

theorem stage_replicate (n : ℕ) (v : Vec3) :
    stage (List.replicate n v) = List.replicate n (llg_rhs v H_EXT) := by
  apply nth_ext
  · simp [stage_length]
  · intro j hj
    have hjn : j < n := by simpa [stage_length] using hj
    rw [nth_stage _ _ (by simpa using hjn), nth_replicate n v j hjn,
      exchange_replicate n v j hjn, vadd_zero, nth_replicate n _ j hjn]

theorem trial_replicate (n : ℕ) (v w : Vec3) (c : ℝ) :
    trial (List.replicate n v) (List.replicate n w) c =
      List.replicate n (v + (c * DT) • w) := by
  apply nth_ext
  · simp [trial_length]
  · intro j hj
    have hjn : j < n := by simpa [trial_length] using hj
    have hj' : j < (List.range (List.replicate n v).length).length := by simpa using hjn
    rw [trial, nth_lt _ _ (by simpa using hjn), List.getElem_map, List.getElem_range,
      nth_replicate n v j hjn, nth_replicate n w j hjn, nth_replicate n _ j hjn]

theorem rk4_k1_replicate (n : ℕ) (v : Vec3) :
    rk4_k1 (List.replicate n v) = List.replicate n (llg_rhs v H_EXT) :=
  stage_replicate n v

theorem rk4_k2_replicate (n : ℕ) (v : Vec3) :
    rk4_k2 (List.replicate n v) =
      List.replicate n (llg_rhs (v + (0.5 * DT) • llg_rhs v H_EXT) H_EXT) := by
  rw [rk4_k2, rk4_k1_replicate, trial_replicate, stage_replicate]

theorem rk4_k3_replicate (n : ℕ) (v : Vec3) :
    rk4_k3 (List.replicate n v) =
      List.replicate n
        (llg_rhs (v + (0.5 * DT) •
          llg_rhs (v + (0.5 * DT) • llg_rhs v H_EXT) H_EXT) H_EXT) := by
  rw [rk4_k3, rk4_k2_replicate, trial_replicate, stage_replicate]

theorem rk4_k4_replicate (n : ℕ) (v : Vec3) :
    rk4_k4 (List.replicate n v) =
      List.replicate n
        (llg_rhs (v + (1 * DT) •
          llg_rhs (v + (0.5 * DT) •
            llg_rhs (v + (0.5 * DT) • llg_rhs v H_EXT) H_EXT) H_EXT) H_EXT) := by
  rw [rk4_k4, rk4_k3_replicate, trial_replicate, stage_replicate]

theorem rk4_combined_replicate (n : ℕ) (v : Vec3) (i : ℕ) (h : i < n) :
    rk4_combined (List.replicate n v) i = uniformCombined v := by
  simp only [rk4_combined, uniformCombined]
  rw [rk4_k1_replicate, rk4_k2_replicate, rk4_k3_replicate, rk4_k4_replicate,
    nth_replicate n v i h, nth_replicate n _ i h, nth_replicate n _ i h,
    nth_replicate n _ i h, nth_replicate n _ i h]

theorem rk4_step_replicate (n : ℕ) (v : Vec3) :
    rk4_step (List.replicate n v) = List.replicate n (uniformNext v) := by
  rw [rk4_step_eq]
  apply nth_ext
  · simp
  · intro j hj
    have hjn : j < n := by simpa using hj
    have hj' : j < ((List.range (List.replicate n v).length).map
        (fun i => normalize (rk4_combined (List.replicate n v) i))).length := by
      simpa using hjn
    rw [nth_lt _ _ hj', List.getElem_map, List.getElem_range,
      rk4_combined_replicate n v j hjn, nth_replicate n _ j hjn, uniformNext]

/-! ### Norms -/

theorem dot_pos_of_ne_zero (v : Vec3) (h : v ≠ 0) : 0 < dot v v := by
  have hcomp : v.x ≠ 0 ∨ v.y ≠ 0 ∨ v.z ≠ 0 := by
    by_contra hc
    push_neg at hc
    exact h (by ext <;> simp [hc.1, hc.2.1, hc.2.2])
  rw [dot]
  rcases hcomp with hx | hy | hz
  · nlinarith [mul_self_nonneg v.y, mul_self_nonneg v.z, mul_self_pos.mpr hx]
  · nlinarith [mul_self_nonneg v.x, mul_self_nonneg v.z, mul_self_pos.mpr hy]
  · nlinarith [mul_self_nonneg v.x, mul_self_nonneg v.y, mul_self_pos.mpr hz]

theorem norm_normalize_eq_one (v : Vec3) (h : v ≠ 0) : norm (normalize v) = 1 := by
  have hd : 0 < dot v v := dot_pos_of_ne_zero v h
  have hs : 0 < Real.sqrt (dot v v) := Real.sqrt_pos.mpr hd
  have hss : norm v * norm v = dot v v := Real.mul_self_sqrt (le_of_lt hd)
  have expand : dot (normalize v) (normalize v) = dot v v / (norm v * norm v) := by
    simp only [normalize, dot, Vec3.divs_x, Vec3.divs_y, Vec3.divs_z]
    ring
  have hinner : dot (normalize v) (normalize v) = 1 := by
    rw [expand, hss]
    exact div_self (ne_of_gt hd)
  rw [norm, hinner, Real.sqrt_one]

theorem chainAt_length (c0 : List Vec3) (n : ℕ) :
    (chainAt c0 n).length = c0.length := by
  induction n with
  | zero => rfl
  | succ n ih => rw [chainAt, rk4_step_length, ih]

/-! ### Slot-writing folds (arbitrary parallel completion order) -/

theorem foldl_set_length (g : ℕ → Vec3) (order : List ℕ) (init : List Vec3) :
    (order.foldl (fun acc i => acc.set i (g i)) init).length = init.length := by
  induction order generalizing init with
  | nil => rfl
  | cons i rest ih => simp only [List.foldl_cons]; rw [ih, List.length_set]

theorem nth_set (l : List Vec3) (i j : ℕ) (a : Vec3) (hj : j < l.length) :
    nth (l.set i a) j = if i = j then a else nth l j := by
  rw [nth_lt _ _ (by simpa using hj), List.getElem_set, nth_lt _ _ hj]

theorem nth_foldl_set (g : ℕ → Vec3) (order : List ℕ) (init : List Vec3) (j : ℕ)
    (hj : j < init.length) :
    nth (order.foldl (fun acc i => acc.set i (g i)) init) j =
      if j ∈ order then g j else nth init j := by
  induction order generalizing init with
  | nil => simp
  | cons i rest ih =>
    simp only [List.foldl_cons]
    rw [ih (init.set i (g i)) (by simpa using hj)]
    by_cases hjr : j ∈ rest
    · simp [hjr]
    · rw [nth_set init i j (g i) hj]
      by_cases hij : i = j
      · subst hij
        simp [hjr]
      · have hne : j ∉ i :: rest := by
          intro hc
          rcases List.mem_cons.mp hc with h1 | h1
          · exact hij h1.symm
          · exact hjr h1
        simp [hne, hij, hjr]

theorem stageSched_eq_stage (chain : List Vec3) (order : List ℕ)
    (hp : order.Perm (List.range chain.length)) :
    stageSched order chain = stage chain := by
  apply nth_ext
  · rw [stageSched, foldl_set_length, List.length_replicate, stage_length]
  · intro j hj
    have hjn : j < chain.length := by
      simpa [stageSched, foldl_set_length] using hj
    have hmem : j ∈ order := by
      rw [hp.mem_iff, List.mem_range]
      exact hjn
    rw [stageSched, nth_foldl_set _ _ _ j (by simpa using hjn), if_pos hmem,
      nth_stage chain j hjn]

/-! ### The driver's time loop -/

theorem driver_fold (c0 : List Vec3) (k : ℕ) :
    (List.range k).foldl driverStep (c0, []) =
      (chainAt c0 k,
        ((List.range k).filter (fun s => s % 50 == 0)).map
          (fun (s : ℕ) => ((s : ℝ) * DT, avgZ (chainAt c0 s)))) := by
  induction k with
  | zero => simp [chainAt]
  | succ k ih =>
    rw [List.range_succ, List.foldl_append, ih]
    simp only [List.foldl_cons, List.foldl_nil, driverStep, List.filter_append,
      List.map_append]
    by_cases h : k % 50 = 0
    · simp [h, chainAt]
    · simp [h, chainAt]

/-! ### The moment `(0,0,1)` is a fixed point of the flow -/

theorem llg_rhs_zhat : llg_rhs ⟨0, 0, 1⟩ H_EXT = 0 := by
  ext <;>
    simp only [llg_rhs, cross, H_EXT, Vec3.smul_x, Vec3.smul_y, Vec3.smul_z,
      Vec3.add_x, Vec3.add_y, Vec3.add_z, Vec3.zero_x, Vec3.zero_y, Vec3.zero_z] <;>
    ring

theorem uniformCombined_zhat : uniformCombined ⟨0, 0, 1⟩ = ⟨0, 0, 1⟩ := by
  simp [uniformCombined, llg_rhs_zhat, vsmul_zero, vadd_zero, vzero_add]

/-! ### Claim theorems -/

/-- C1: One RK4 step computes four staged derivative sequences `k1..k4` where
the trial chains are built per site as `chain[i] + 0.5·dt·k1[i]` (for k2),
`chain[i] + 0.5·dt·k2[i]` (for k3) and `chain[i] + dt·k3[i]` (for k4), and the
result at site `i` is `normalize(chain[i] + (dt/6)·(k1[i] + 2·k2[i] + 2·k3[i] + k4[i]))`;
normalization is applied exactly once, after the final combination, and the
trial chains (`trial`, inside `rk4_k2`/`rk4_k3`/`rk4_k4`) are unnormalized. -/
theorem rk4_step_stages_and_combine (chain : List Vec3) :
    rk4_step chain =
      (List.range chain.length).map (fun i =>
        normalize (nth chain i +
          (DT / 6) • (nth (rk4_k1 chain) i + (2 : ℝ) • nth (rk4_k2 chain) i +
            (2 : ℝ) • nth (rk4_k3 chain) i + nth (rk4_k4 chain) i))) :=
  rk4_step_eq chain

/-- C2: for every moment `m` and effective field `h_eff`, the LLG right-hand
side equals `−γ/(1+α²) · (m×h_eff + α·m×(m×h_eff))` with `γ = GAMMA` and
`α = ALPHA` from the immutable simulation constants. -/
theorem llg_rhs_formula (m h_eff : Vec3) :
    llg_rhs m h_eff =
      (-GAMMA / (1 + ALPHA ^ 2)) •
        (cross m h_eff + ALPHA • cross m (cross m h_eff)) := by
  have hsc : -GAMMA / (1 + ALPHA * ALPHA) = -GAMMA / (1 + ALPHA ^ 2) := by
    rw [pow_two]
  simp only [llg_rhs]
  rw [hsc]

/-- C3: for every chain and in-range site `i`, the exchange contribution is
`(2·A_ex/μ₀Mₛ)·(m[i+1] − 2·m[i] + m[i−1])/D²` with an out-of-range neighbor
replaced by `m[i]` itself, and the effective field each stage passes to the
LLG kernel at site `i` is `H_ext` plus this exchange term. -/
theorem exchange_field_formula (chain : List Vec3) (i : ℕ) (h : i < chain.length) :
    exchange_field chain i =
      ((2 * A_EX / MU0_MS) / (D * D)) •
        ((if i + 1 < chain.length then nth chain (i + 1) else nth chain i) -
          (2 : ℝ) • nth chain i +
          (if 0 < i then nth chain (i - 1) else nth chain i)) ∧
    nth (stage chain) i = llg_rhs (nth chain i) (H_EXT + exchange_field chain i) := by
  constructor
  · simp only [exchange_field]
    rw [divs_smul]
  · exact nth_stage chain i h

/-- Witness for C3 at the concrete chain `[(0,0,1)]` and site `0`. -/
theorem exchange_field_formula_witness :
    (0 : ℕ) < ([(⟨0, 0, 1⟩ : Vec3)] : List Vec3).length ∧
    (exchange_field [(⟨0, 0, 1⟩ : Vec3)] 0 =
        ((2 * A_EX / MU0_MS) / (D * D)) •
          ((if 0 + 1 < ([(⟨0, 0, 1⟩ : Vec3)] : List Vec3).length then
              nth [(⟨0, 0, 1⟩ : Vec3)] (0 + 1)
            else nth [(⟨0, 0, 1⟩ : Vec3)] 0) -
            (2 : ℝ) • nth [(⟨0, 0, 1⟩ : Vec3)] 0 +
            (if 0 < 0 then nth [(⟨0, 0, 1⟩ : Vec3)] (0 - 1)
             else nth [(⟨0, 0, 1⟩ : Vec3)] 0)) ∧
      nth (stage [(⟨0, 0, 1⟩ : Vec3)]) 0 =
        llg_rhs (nth [(⟨0, 0, 1⟩ : Vec3)] 0)
          (H_EXT + exchange_field [(⟨0, 0, 1⟩ : Vec3)] 0)) :=
  ⟨by simp, exchange_field_formula [⟨0, 0, 1⟩] 0 (by simp)⟩

/-- C4: immediately after the RK4 combine and renormalize, every site of the
new chain has Euclidean norm exactly 1 (so a fortiori within any tolerance ε),
provided the pre-normalization combined vector at that site is nonzero. -/
theorem rk4_norm_invariant (c0 : List Vec3) (n i : ℕ) (hi : i < c0.length)
    (h : rk4_combined (chainAt c0 n) i ≠ 0) :
    norm (nth (chainAt c0 (n + 1)) i) = 1 := by
  have hlen : i < (chainAt c0 n).length := by rw [chainAt_length]; exact hi
  show norm (nth (rk4_step (chainAt c0 n)) i) = 1
  rw [nth_rk4_step _ _ hlen]
  exact norm_normalize_eq_one _ h

/-- Witness for C4: one step from the single-site chain `[(0,0,1)]`. -/
theorem rk4_norm_invariant_witness :
    (0 : ℕ) < ([(⟨0, 0, 1⟩ : Vec3)] : List Vec3).length ∧
    rk4_combined (chainAt [(⟨0, 0, 1⟩ : Vec3)] 0) 0 ≠ 0 ∧
    norm (nth (chainAt [(⟨0, 0, 1⟩ : Vec3)] (0 + 1)) 0) = 1 := by
  have hne : rk4_combined (chainAt [(⟨0, 0, 1⟩ : Vec3)] 0) 0 ≠ 0 := by
    have hrepl : chainAt [(⟨0, 0, 1⟩ : Vec3)] 0 = List.replicate 1 ⟨0, 0, 1⟩ := rfl
    rw [hrepl, rk4_combined_replicate 1 _ 0 one_pos, uniformCombined_zhat]
    intro hEq
    have hz := congrArg Vec3.z hEq
    simp at hz
  exact ⟨by simp, hne, rk4_norm_invariant [⟨0, 0, 1⟩] 0 0 (by simp) hne⟩

/-- C5 (code bug): the per-step zarr write does NOT respect the declared array
shape `(N_STEPS+1, 1, 1, N_SPINS, 3)`: the subset puts the full `0..N_SPINS`
range on axis 1, whose declared extent is 1 (out of bounds), and only `0..1`
on axis 3, whose extent is `N_SPINS` (not the full spatial coverage the spec
requires).  Evaluated here at the failing step 0. -/
theorem zarr_write_subset_bug :
    ¬ subsetWithinShape (writeSubset 0) arrayShape ∧
    (writeSubset 0).getD 1 (0, 0) = (0, 128) ∧ arrayShape.getD 1 0 = 1 ∧
    (writeSubset 0).getD 3 (0, 0) = (0, 1) ∧ arrayShape.getD 3 0 = 128 := by
  refine ⟨?_, by decide, by decide, by decide, by decide⟩
  simp only [subsetWithinShape]
  decide

/-- C6: a uniform chain stays uniform under one RK4 step, and each site's
updated value equals the value produced by one RK4 step on the single-spin
chain `[v]` (same `H_EXT`, `GAMMA`, `ALPHA`, `DT`). -/
theorem uniform_chain_matches_single_spin (n : ℕ) (v : Vec3) :
    rk4_step (List.replicate n v) = List.replicate n (nth (rk4_step [v]) 0) := by
  rw [rk4_step_replicate]
  have h1 : rk4_step [v] = List.replicate 1 (uniformNext v) := by
    rw [← List.replicate_one, rk4_step_replicate]
  rw [h1, nth_replicate 1 _ 0 one_pos]

/-- C7: on a chain whose sites are all identical, the exchange field is exactly
the zero vector at every in-range site, including the boundary sites. -/
theorem exchange_field_uniform_zero (n : ℕ) (v : Vec3) (i : ℕ) (h : i < n) :
    exchange_field (List.replicate n v) i = 0 :=
  exchange_replicate n v i h

/-- Witness for C7 at both boundary sites of a length-3 uniform chain. -/
theorem exchange_field_uniform_zero_witness :
    ((0 : ℕ) < 3 ∧ exchange_field (List.replicate 3 ⟨0, 0, 1⟩) 0 = 0) ∧
    ((2 : ℕ) < 3 ∧ exchange_field (List.replicate 3 ⟨0, 0, 1⟩) 2 = 0) :=
  ⟨⟨by norm_num, exchange_field_uniform_zero 3 ⟨0, 0, 1⟩ 0 (by norm_num)⟩,
   ⟨by norm_num, exchange_field_uniform_zero 3 ⟨0, 0, 1⟩ 2 (by norm_num)⟩⟩

/-- C8: one stage evaluation returns a same-length sequence whose entry `i` is
`llg_rhs(chain[i], H_EXT + exchange_field(chain, i))` in the original site
order, and it is deterministic under parallel scheduling: any completion order
that is a permutation of the site indices (any worker count) produces the same
output sequence. -/
theorem stage_contract (chain : List Vec3) :
    (stage chain).length = chain.length ∧
    (∀ i, i < chain.length →
      nth (stage chain) i = llg_rhs (nth chain i) (H_EXT + exchange_field chain i)) ∧
    (∀ order1 order2 : List ℕ,
      order1.Perm (List.range chain.length) →
      order2.Perm (List.range chain.length) →
      stageSched order1 chain = stage chain ∧
        stageSched order1 chain = stageSched order2 chain) := by
  refine ⟨stage_length chain, fun i hi => nth_stage chain i hi,
    fun o1 o2 h1 h2 => ?_⟩
  rw [stageSched_eq_stage chain o1 h1, stageSched_eq_stage chain o2 h2]
  exact ⟨rfl, rfl⟩

/-- Witness for C8 on the chain `[(0,0,1)]` with the schedule `[0]`. -/
theorem stage_contract_witness :
    nth (stage [(⟨0, 0, 1⟩ : Vec3)]) 0 =
      llg_rhs (nth [(⟨0, 0, 1⟩ : Vec3)] 0)
        (H_EXT + exchange_field [(⟨0, 0, 1⟩ : Vec3)] 0) ∧
    stageSched [0] [(⟨0, 0, 1⟩ : Vec3)] = stage [(⟨0, 0, 1⟩ : Vec3)] := by
  obtain ⟨-, h2, h3⟩ := stage_contract [(⟨0, 0, 1⟩ : Vec3)]
  obtain ⟨ha, -⟩ := h3 [0] [0] (by decide) (by decide)
  exact ⟨h2 0 (by simp), ha⟩

/-- C9 (code bug): the claim — a progress line exactly at the steps that are
multiples of 50, carrying `step·dt` and the chain's mean z-component — is what
the driver's print statement implements (third conjunct: folding the
print-and-step body alone over all steps emits exactly those lines), but the
run never reaches it: the step-0 sink write fails on its out-of-bounds subset
(second conjunct) and the `?` aborts `main` before the first `println!`, so the
program prints no progress lines at all (first conjunct). -/
theorem progress_lines_abort_empty :
    printedLines = [] ∧
    ¬ subsetWithinShape (writeSubset 0) arrayShape ∧
    ((List.range (N_STEPS + 1)).foldl driverStep (initChain, [])).2 =
      ((List.range (N_STEPS + 1)).filter (fun s => s % 50 == 0)).map
        (fun (s : ℕ) => ((s : ℝ) * DT, avgZ (chainAt initChain s))) := by
  have h0 : ¬ subsetWithinShape (writeSubset 0) arrayShape := by decide
  refine ⟨?_, h0, ?_⟩
  · rw [printedLines, List.range_succ_eq_map]
    simp only [driverRun]
    rw [if_neg h0]
  · rw [driver_fold]

/-- C10: the LLG right-hand side is orthogonal to the moment (exact real
arithmetic), and hence every per-site stage derivative is tangent to the unit
sphere at its evaluation point. -/
theorem llg_rhs_orthogonal :
    (∀ m h_eff : Vec3, dot m (llg_rhs m h_eff) = 0) ∧
    (∀ (chain : List Vec3) (i : ℕ), i < chain.length →
      dot (nth chain i) (nth (stage chain) i) = 0) := by
  have base : ∀ m h_eff : Vec3, dot m (llg_rhs m h_eff) = 0 := by
    intro m h_eff
    simp only [llg_rhs, dot, cross, Vec3.smul_x, Vec3.smul_y, Vec3.smul_z,
      Vec3.add_x, Vec3.add_y, Vec3.add_z]
    ring
  refine ⟨base, fun chain i hi => ?_⟩
  rw [nth_stage chain i hi]
  exact base _ _

/-- Witness for C10 at `m = (0,0,1)`, `h_eff = (1,0,0)` and the chain `[(0,0,1)]`. -/
theorem llg_rhs_orthogonal_witness :
    dot ⟨0, 0, 1⟩ (llg_rhs ⟨0, 0, 1⟩ ⟨1, 0, 0⟩) = 0 ∧
    dot (nth [(⟨0, 0, 1⟩ : Vec3)] 0) (nth (stage [(⟨0, 0, 1⟩ : Vec3)]) 0) = 0 :=
  ⟨llg_rhs_orthogonal.1 ⟨0, 0, 1⟩ ⟨1, 0, 0⟩,
   llg_rhs_orthogonal.2 [⟨0, 0, 1⟩] 0 (by simp)⟩

end Nez
